import Mathlib

/-!
Verification development for the inkwell git client engine.

The Go sources under internal/git (repository.go, operations.go, auth.go,
history.go) and the sync/clone layer are shallowly embedded below as
executable Lean definitions: association lists stand for the git maps
(status map, index, trees, refs), Except models fallible Go functions,
and the out-of-scope plumbing calls (transport, ssh key parsing,
filesystem stat) are environment parameters.
-/

/-- Worktree/staging status codes of the go-git plumbing
(git.Unmodified, git.Untracked, git.Modified, git.Added, git.Deleted,
git.Renamed, git.Copied, git.UpdatedButUnmerged). -/
inductive StatusCode where
  | Unmodified
  | Untracked
  | Modified
  | Added
  | Deleted
  | Renamed
  | Copied
  | UpdatedButUnmerged
deriving DecidableEq, Repr

/-- One value of the go-git status map: the staging-area code and the
worktree code for a path. -/
structure FileStatusEntry where
  Staging : StatusCode
  Worktree : StatusCode
deriving DecidableEq, Repr

/-- FileStatus of internal/git/types.go: path, status kind, staged flag. -/
structure FileStatus where
  Path : String
  Status : String
  Staged : Bool
deriving DecidableEq, Repr

/-- The classification switch of Repository.Status (repository.go lines
58 to 81): first matching case wins; unmodified files are skipped
(the loop continues), and the staged flag is
Staging not Unmodified and not Untracked. -/
def classifyFile (fs : FileStatusEntry) : Option (String × Bool) :=
  let status? : Option String :=
    if fs.Worktree = .Untracked then some "untracked"
    else if fs.Worktree = .Modified ∨ fs.Staging = .Modified then some "modified"
    else if fs.Worktree = .Deleted ∨ fs.Staging = .Deleted then some "deleted"
    else if fs.Staging = .Added then some "added"
    else if fs.Worktree = .UpdatedButUnmerged then some "conflicted"
    else if fs.Staging ≠ .Unmodified then some "modified"
    else none
  status?.map fun s =>
    (s, decide (fs.Staging ≠ .Unmodified ∧ fs.Staging ≠ .Untracked))

/-- The file-list construction loop of Repository.Status: one iteration
per entry of the status map, emitting at most one FileStatus per entry. -/
def statusFiles (m : List (String × FileStatusEntry)) : List FileStatus :=
  m.filterMap fun e => (classifyFile e.2).map fun sb => ⟨e.1, sb.1, sb.2⟩

/-- A precedence scheme in the sense of the spec: an ordered list of
(status kind, condition) pairs; the first kind whose condition holds is
assigned. -/
def specChoose (conds : List (String × (FileStatusEntry → Bool))) (fs : FileStatusEntry) :
    Option String :=
  (conds.find? fun c => c.2 fs).map Prod.fst

/-- The precedence the spec claims for Status: untracked, then
conflicted, then staged-added, then modified, then deleted. -/
def precedenceClaimed : List (String × (FileStatusEntry → Bool)) :=
  [("untracked", fun fs => fs.Worktree == .Untracked),
   ("conflicted", fun fs => fs.Worktree == .UpdatedButUnmerged),
   ("added", fun fs => fs.Staging == .Added),
   ("modified", fun fs => fs.Worktree == .Modified || fs.Staging == .Modified),
   ("deleted", fun fs => fs.Worktree == .Deleted || fs.Staging == .Deleted)]

/-- The precedence the code actually implements: untracked, then
modified, then deleted, then staged-added, then conflicted, then a
fallback classifying any remaining non-unmodified staging state as
modified. -/
def precedenceOfCode : List (String × (FileStatusEntry → Bool)) :=
  [("untracked", fun fs => fs.Worktree == .Untracked),
   ("modified", fun fs => fs.Worktree == .Modified || fs.Staging == .Modified),
   ("deleted", fun fs => fs.Worktree == .Deleted || fs.Staging == .Deleted),
   ("added", fun fs => fs.Staging == .Added),
   ("conflicted", fun fs => fs.Worktree == .UpdatedButUnmerged),
   ("modified", fun fs => fs.Staging != .Unmodified)]

/-- AuthType of internal/git/auth.go. -/
inductive AuthType where
  | ssh
  | https
  | none
deriving DecidableEq, Repr

/-- ASCII lowercasing, modelling strings.ToLower on the ASCII range
(URLs in scope here are ASCII). -/
def asciiLower (s : String) : String := String.mk (s.data.map Char.toLower)

/-- Go strings.HasPrefix. -/
def goHasPre (s pre : String) : Bool := pre.data.isPrefixOf s.data

/-- Go strings.Contains for a one-character substring. -/
def goContainsChar (s : String) (c : Char) : Bool := s.data.contains c

/-- DetectAuthType of internal/git/auth.go lines 33 to 50: lowercases
the URL, classifies ssh when it begins with git@ or ssh://, or contains
an at sign while not beginning with http; https when it begins with
https:// or http://; none otherwise. -/
def detectAuthType (url : String) : AuthType :=
  let u := asciiLower url
  if goHasPre u "git@" ∨ goHasPre u "ssh://" ∨
      (goContainsChar u '@' ∧ ¬ goHasPre u "http") then .ssh
  else if goHasPre u "https://" ∨ goHasPre u "http://" then .https
  else .none

/-- The classification the spec claims for DetectAuthType: ssh exactly
for git@ and ssh:// shapes, https for http(s)://, none for everything
else. -/
def specAuthClass (url : String) : AuthType :=
  let u := asciiLower url
  if goHasPre u "git@" ∨ goHasPre u "ssh://" then .ssh
  else if goHasPre u "https://" ∨ goHasPre u "http://" then .https
  else .none

/-- An ssh-shaped URL in the sense the code uses: git@ or ssh://
shapes, or any URL containing an at sign without an http prefix (all
after ASCII lowercasing). -/
def sshShaped (url : String) : Prop :=
  goHasPre (asciiLower url) "git@" = true ∨
  goHasPre (asciiLower url) "ssh://" = true ∨
  (goContainsChar (asciiLower url) '@' = true ∧
    ¬ goHasPre (asciiLower url) "http" = true)

/-- An http(s)-shaped URL: https:// or http:// after lowercasing. -/
def httpShaped (url : String) : Prop :=
  goHasPre (asciiLower url) "https://" = true ∨
  goHasPre (asciiLower url) "http://" = true

/-- A commit object: its tree (path to blob hash), parent hashes,
message and author identity. -/
structure CommitObj where
  tree : List (String × String)
  parents : List String
  message : String
  authorName : String
  authorEmail : String
deriving DecidableEq, Repr

/-- The observable git repository state behind one Repository handle:
the commit store, the HEAD commit (none while unborn), the staging
index and the working tree, each a path-to-blob-hash association list. -/
structure RepoState where
  commits : List (String × CommitObj)
  headRef : Option String
  index : List (String × String)
  worktree : List (String × String)
deriving DecidableEq, Repr

/-- The tree of the HEAD commit; empty while HEAD is unborn or dangling
(used only where the code treats those alike). -/
def headTree (st : RepoState) : List (String × String) :=
  match st.headRef with
  | none => []
  | some h =>
    match st.commits.lookup h with
    | none => []
    | some c => c.tree

/-- All paths known to any of HEAD tree, index or working tree: the key
set of the go-git status map. -/
def statePaths (st : RepoState) : List String :=
  ((headTree st).map Prod.fst ++ st.index.map Prod.fst ++
    st.worktree.map Prod.fst).dedup

/-- Staging code of a path: the index compared against HEAD, as go-git
computes the left column of the status map. -/
def stagingCode (st : RepoState) (p : String) : StatusCode :=
  match (headTree st).lookup p, st.index.lookup p with
  | none, none => .Untracked
  | none, some _ => .Added
  | some _, none => .Deleted
  | some h, some i => if h = i then .Unmodified else .Modified

/-- Worktree code of a path: the working tree compared against the
index, the right column of the status map. -/
def worktreeCode (st : RepoState) (p : String) : StatusCode :=
  match st.index.lookup p, st.worktree.lookup p with
  | none, none => .Unmodified
  | none, some _ => .Untracked
  | some _, none => .Deleted
  | some i, some w => if i = w then .Unmodified else .Modified

/-- The status map worktree.Status() hands to Repository.Status. -/
def statusMapOf (st : RepoState) : List (String × FileStatusEntry) :=
  (statePaths st).map fun p => (p, ⟨stagingCode st p, worktreeCode st p⟩)

/-- Status().Files for a repository state. -/
def statusFilesOf (st : RepoState) : List FileStatus :=
  statusFiles (statusMapOf st)

/-- Removes every binding of a key from an association list. -/
def eraseKey (p : String) (l : List (String × String)) : List (String × String) :=
  l.filter fun e => e.1 ≠ p

/-- Adds or replaces the binding of a key in an association list. -/
def setKey (p v : String) (l : List (String × String)) : List (String × String) :=
  (p, v) :: eraseKey p l

/-- One go-git worktree.Add(path) call: stages the working-tree content
of the path, or stages its deletion when it is tracked but gone from
the working tree; unknown paths are an error. -/
def wtAdd (st : RepoState) (p : String) : Except String RepoState :=
  match st.worktree.lookup p with
  | some c => .ok { st with index := setKey p c st.index }
  | none =>
    match st.index.lookup p with
    | some _ => .ok { st with index := eraseKey p st.index }
    | none => .error ("failed to stage " ++ p)

/-- Repository.Stage (operations.go lines 12 to 26): worktree.Add on
each path in order, stopping at the first error. -/
def stageM (st : RepoState) (paths : List String) : Except String RepoState :=
  paths.foldlM wtAdd st

/-- One go-git worktree.Remove(path) call: removes the path from the
index and deletes the file from the working tree (git rm semantics). -/
def wtRemove (st : RepoState) (p : String) : RepoState :=
  { st with index := eraseKey p st.index, worktree := eraseKey p st.worktree }

/-- Repository.Unstage (operations.go lines 47 to 102). With no HEAD,
each path is removed from the index (worktree.Remove). With a HEAD
commit, a path present in the HEAD tree triggers worktree.Reset with
MixedReset, resetting the whole index to the HEAD tree, while a path
absent from HEAD is removed via worktree.Remove with errors ignored. -/
def unstageM (st : RepoState) (paths : List String) : Except String RepoState :=
  match st.headRef with
  | none =>
    paths.foldlM (fun s p =>
      if (s.index.lookup p).isSome then .ok (wtRemove s p)
      else .error ("failed to unstage " ++ p)) st
  | some h =>
    match st.commits.lookup h with
    | none => .error "failed to get HEAD commit"
    | some c =>
      paths.foldlM (fun s p =>
        match c.tree.lookup p with
        | some _ => .ok { s with index := c.tree }
        | none => .ok (wtRemove s p)) st

/-- CommitOptions of operations.go: message, optional author fields,
optional file list. -/
structure CommitOpts where
  Message : String
  AuthorName : String
  AuthorEmail : String
  Files : List String
deriving DecidableEq, Repr

/-- The errors Commit can return. -/
inductive CommitErr where
  | emptyMessage
  | stageFailed (msg : String)
  | nothingStaged
deriving DecidableEq, Repr

/-- The Commit record returned by Repository.Commit (hash, short hash,
message, author name and email). -/
structure CommitInfo where
  Hash : String
  ShortHash : String
  Message : String
  Author : String
  Email : String
deriving DecidableEq, Repr

/-- The staged-changes test of Commit (operations.go lines 155 to 161):
some status entry has a staging code other than Unmodified and
Untracked. -/
def hasStagedChanges (st : RepoState) : Bool :=
  (statusMapOf st).any fun e =>
    e.2.Staging != .Unmodified && e.2.Staging != .Untracked

/-- Repository.Commit (operations.go lines 130 to 204). Empty message
fails first; a non-empty Files list is staged with worktree.Add; with
nothing staged afterwards it fails; otherwise a commit of the index
snapshot is written on top of the current HEAD, with the author
defaulting to the synthetic inkwell identity. The content hash of the
new commit is supplied by the plumbing layer as newHash. -/
def commitM (st : RepoState) (opts : CommitOpts) (newHash : String) :
    Except CommitErr (CommitInfo × RepoState) :=
  if opts.Message = "" then .error .emptyMessage
  else
    match (if opts.Files ≠ [] then stageM st opts.Files else .ok st) with
    | .error e => .error (.stageFailed e)
    | .ok st1 =>
      if ¬ hasStagedChanges st1 then .error .nothingStaged
      else
        let authorName := if opts.AuthorName = "" then "Inkwell User" else opts.AuthorName
        let authorEmail := if opts.AuthorEmail = "" then "user@inkwell.local" else opts.AuthorEmail
        let c : CommitObj :=
          ⟨st1.index, st1.headRef.toList, opts.Message, authorName, authorEmail⟩
        .ok (⟨newHash, String.mk (newHash.data.take 7), c.message, c.authorName, c.authorEmail⟩,
          { st1 with commits := (newHash, c) :: st1.commits, headRef := some newHash })

/-- Size bound for the commit-graph walk: one unit per stored commit
plus one per parent edge. -/
def visitSize (g : List (String × List String)) : Nat :=
  (g.map fun e => 1 + e.2.length).sum

/-- Looks up the parent list of a hash and simultaneously removes that
entry (marking the commit visited). -/
def lookupTake (h : String) :
    List (String × List String) → Option (List String × List (String × List String))
  | [] => none
  | e :: es =>
    if e.1 = h then some (e.2, es)
    else
      match lookupTake h es with
      | none => none
      | some (ps, es') => some (ps, e :: es')

/-- The hash-set commit walk of calculateAheadBehind: starting from the
frontier, each commit with a stored object is recorded once and its
parents enqueued, exactly as the log iteration fills the localHashes
and remoteHashes maps (repository.go lines 133 to 148). The fuel
argument only bounds recursion; visitSize g plus the frontier length
always suffices. -/
def walkF : Nat → List (String × List String) → List String → List String
  | 0, _, _ => []
  | fuel + 1, g, frontier =>
    match frontier with
    | [] => []
    | h :: rest =>
      match lookupTake h g with
      | none => walkF fuel g rest
      | some (ps, g') => h :: walkF fuel g' (ps ++ rest)

/-- The set of commits the plumbing log iterator yields from a start
hash, as a duplicate-free list. -/
def reachList (g : List (String × List String)) (h : String) : List String :=
  walkF (visitSize g + 1) g [h]

/-- Reachability in the commit graph: the commits reachable from h by
following parent edges, every visited commit having a stored object. -/
inductive Reaches (g : List (String × List String)) : String → String → Prop where
  | here {a : String} {qs : List String} :
      g.lookup a = some qs → Reaches g a a
  | via {a p x : String} {qs : List String} :
      g.lookup a = some qs → p ∈ qs → Reaches g p x → Reaches g a x

/-- The repository data calculateAheadBehind reads: the commit parent
graph, the HEAD reference (branch short name and commit hash), and the
resolvable references (name to hash). -/
structure RemoteEnv where
  graph : List (String × List String)
  head : Option (String × String)
  refs : List (String × String)

/-- plumbing.NewRemoteReferenceName for the origin remote. -/
def remoteRefName (branch : String) : String :=
  "refs/remotes/origin/" ++ branch

/-- calculateAheadBehind (repository.go lines 100 to 165): zero pair
when HEAD, the origin tracking reference, or either commit object is
unavailable; otherwise both reachable hash sets are materialized and
the two one-sided set differences are counted. -/
def calculateAheadBehind (env : RemoteEnv) : Nat × Nat :=
  match env.head with
  | none => (0, 0)
  | some (branch, localHash) =>
    match env.refs.lookup (remoteRefName branch) with
    | none => (0, 0)
    | some remoteHash =>
      match env.graph.lookup localHash with
      | none => (0, 0)
      | some _ =>
        match env.graph.lookup remoteHash with
        | none => (0, 0)
        | some _ =>
          let localHashes := reachList env.graph localHash
          let remoteHashes := reachList env.graph remoteHash
          (localHashes.countP fun h => !(remoteHashes.contains h),
           remoteHashes.countP fun h => !(localHashes.contains h))

/-- The stat oracle of the filesystem: true where os.Stat reports the
path as not existing. -/
structure FileSys where
  statNotExist : String → Bool

/-- The numbered candidate paths of ensureUniquePath. -/
def numberedCandidate (basePath : String) (i : Nat) : String :=
  basePath ++ "-" ++ toString i

/-- The suffix loop of ensureUniquePath: tries basePath-i for fuel
consecutive values of i, returning the first free one. -/
def tryNumbered (fs : FileSys) (basePath : String) : Nat → Nat → Option String
  | _, 0 => none
  | i, fuel + 1 =>
    if fs.statNotExist (numberedCandidate basePath i) then
      some (numberedCandidate basePath i)
    else tryNumbered fs basePath (i + 1) fuel

/-- ensureUniquePath of the clone layer: the base path when free,
otherwise the first free of basePath-1 through basePath-999, otherwise
the (still colliding) base path as fallback. -/
def ensureUniquePath (fs : FileSys) (basePath : String) : String :=
  if fs.statNotExist basePath then basePath
  else
    match tryNumbered fs basePath 1 999 with
    | some p => p
    | none => basePath

/-- Go strings.TrimSuffix. -/
def goTrimSuffix (s suf : String) : String :=
  if suf.data.isSuffixOf s.data then
    String.mk (s.data.take (s.data.length - suf.data.length))
  else s

/-- ASCII whitespace, for strings.TrimSpace on ASCII names. -/
def isSpaceChar (c : Char) : Bool :=
  c == ' ' || c == '\t' || c == '\n' || c == '\r'

/-- Go strings.TrimSpace on the ASCII range. -/
def goTrimSpace (s : String) : String :=
  String.mk (((s.data.dropWhile isSpaceChar).reverse.dropWhile isSpaceChar).reverse)

/-- Splitting on a one-character separator, as strings.Split does for
the ":" and "/" separators used here. -/
def splitCharAux (sep : Char) : List Char → List Char → List (List Char)
  | [], acc => [acc.reverse]
  | c :: cs, acc =>
    if c = sep then acc.reverse :: splitCharAux sep cs []
    else splitCharAux sep cs (c :: acc)

/-- Go strings.Split with a one-character separator. -/
def goSplitChar (s : String) (sep : Char) : List String :=
  (splitCharAux sep s.data []).map String.mk

/-- cleanRepoName of the clone layer: drop a .git suffix, then trim. -/
def cleanRepoName (name : String) : String :=
  goTrimSpace (goTrimSuffix name ".git")

/-- extractRepoName of the clone layer: scp-style URLs of the shape
user@host:path take the last segment of the part after the colon; any
other URL containing a slash takes its last slash segment; otherwise
the name is empty. -/
def extractRepoName (url : String) : String :=
  let scp : Option String :=
    if goContainsChar url ':' ∧ goContainsChar url '@' ∧ ¬ goHasPre url "ssh://" then
      match goSplitChar url ':' with
      | [_, path] =>
        match (goSplitChar path '/').getLast? with
        | some seg => some (cleanRepoName seg)
        | none => none
      | _ => none
    else none
  match scp with
  | some n => n
  | none =>
    if goContainsChar url '/' then
      match (goSplitChar url '/').getLast? with
      | some seg => cleanRepoName seg
      | none => ""
    else ""

/-- filepath.Join of the repos directory and a repo name (the names in
scope are clean relative names). -/
def joinPath (a b : String) : String := a ++ "/" ++ b

/-- CloneOptions of the clone layer (credentials live in the
environment). -/
structure CloneOpts where
  URL : String
  DestPath : String
  Branch : String
  Depth : Nat

/-- CloneResult of the clone layer. -/
structure CloneRes where
  Path : String
  RemoteURL : String
  Branch : String
deriving DecidableEq, Repr

/-- The environment CloneWithProgress runs against: the repos
directory, the stat oracle, filepath.Dir, and the outcomes of the
parent mkdir, the credential resolution and the transport-level clone
(the latter as a function of the destination). headBranch is the HEAD
of the fresh clone. -/
structure CloneEnv where
  reposDir : String
  fs : FileSys
  dirName : String → String
  mkdirAllOk : String → Bool
  authResult : Except String Unit
  cloneResult : String → Except String Unit
  headBranch : Option String

/-- The observable outcome of CloneWithProgress: the returned value or
error, plus every directory removed on the way. -/
structure CloneOutcome where
  result : Except String CloneRes
  removed : List String
deriving Repr

/-- Destination selection of CloneWithProgress: an explicit DestPath is
used verbatim; otherwise the name is derived from the URL (with the
fallback name repo) and made unique under the repos directory. -/
def cloneDestPath (env : CloneEnv) (opts : CloneOpts) : String :=
  if opts.DestPath = "" then
    let rn := extractRepoName opts.URL
    let repoName := if rn = "" then "repo" else rn
    ensureUniquePath env.fs (joinPath env.reposDir repoName)
  else opts.DestPath

/-- CloneWithProgress: picks the destination, ensures the parent
directory, resolves credentials, clones, and on transport failure
removes the destination directory (os.RemoveAll) before returning. -/
def cloneWithProgress (env : CloneEnv) (opts : CloneOpts) : CloneOutcome :=
  let destPath := cloneDestPath env opts
  if ¬ env.mkdirAllOk (env.dirName destPath) then
    ⟨.error "failed to create parent directory", []⟩
  else
    match env.authResult with
    | .error e => ⟨.error ("authentication error: " ++ e), []⟩
    | .ok _ =>
      match env.cloneResult destPath with
      | .error e => ⟨.error ("clone failed: " ++ e), [destPath]⟩
      | .ok _ =>
        let branchName :=
          match env.headBranch with
          | none => "main"
          | some b => b
        ⟨.ok ⟨destPath, opts.URL, branchName⟩, []⟩

/-- A transport-level failure: the distinguished already-up-to-date
sentinel (git.NoErrAlreadyUpToDate) or any other error. -/
inductive TransportErr where
  | alreadyUpToDate
  | other (msg : String)
deriving DecidableEq, Repr

/-- A resolved transport credential. -/
inductive AuthMethod where
  | sshKey (path : String)
  | basic (user pass : String)
deriving DecidableEq, Repr

/-- AuthConfig of internal/git/auth.go. -/
structure AuthConfig where
  type : AuthType
  sshKeyPath : String
  sshPassphrase : String
  username : String
  password : String
deriving DecidableEq, Repr

/-- PushResult of the sync layer. -/
structure PushResult where
  Success : Bool
  Message : String
deriving DecidableEq, Repr

/-- PullResult of the sync layer. -/
structure PullResult where
  Success : Bool
  Message : String
  FastForward : Bool
  NewCommits : Nat
deriving DecidableEq, Repr

/-- FetchResult of the sync layer. -/
structure FetchResult where
  Success : Bool
  Message : String
deriving DecidableEq, Repr

/-- The environment one push, pull or fetch call runs against:
initialization and worktree state, the origin remote URLs, the ssh key
loading oracle (key path and passphrase to credential), the outcome of
the transport operation itself, and the data the pull commit counter
reads (commit graph, HEAD before and after). -/
structure SyncEnv where
  initialized : Bool
  worktreeOk : Bool
  origin : Option (List String)
  sshAuth : String → String → Except String AuthMethod
  transport : Except TransportErr Unit
  graph : List (String × List String)
  headBefore : Option String
  headAfter : Option String

/-- GetAuth of internal/git/auth.go: dispatches on the auth type; ssh
key loading is the environment oracle, https builds basic credentials
from username and password (nil when both empty), none yields no
credential. -/
def getAuthM (env : SyncEnv) (c : AuthConfig) : Except String (Option AuthMethod) :=
  match c.type with
  | .ssh => (env.sshAuth c.sshKeyPath c.sshPassphrase).map some
  | .https =>
    .ok (if c.username = "" ∧ c.password = "" then none
         else some (.basic c.username c.password))
  | .none => .ok none

/-- The shared credential-resolution block of Push, Pull and Fetch: an
explicit config is resolved through GetAuth with errors propagated;
with no config, a default ssh credential is attempted only for
ssh-shaped remote URLs, and failures fall back to no credential. -/
def resolveAuth (env : SyncEnv) (cfg : Option AuthConfig) (url : String) :
    Except String (Option AuthMethod) :=
  match cfg with
  | some c => getAuthM env c
  | none =>
    if detectAuthType url = .ssh then
      match getAuthM env ⟨.ssh, "", "", "", ""⟩ with
      | .error _ => .ok none
      | .ok a => .ok a
    else .ok none

/-- Push of the sync layer: precondition checks, credential resolution,
then the transport push with the already-up-to-date error normalized to
a successful result. -/
def pushM (env : SyncEnv) (cfg : Option AuthConfig) : Except String PushResult :=
  if ¬ env.initialized then .error "repository not initialized"
  else
    match env.origin with
    | none => .error "failed to get remote"
    | some urls =>
      match urls.head? with
      | none => .error "no remote URL configured"
      | some url0 =>
        match resolveAuth env cfg url0 with
        | .error e => .error ("failed to get auth: " ++ e)
        | .ok _ =>
          match env.transport with
          | .error .alreadyUpToDate => .ok ⟨true, "Already up to date"⟩
          | .error (.other m) => .error ("failed to push: " ++ m)
          | .ok _ => .ok ⟨true, "Push successful"⟩

/-- Pull of the sync layer: like Push with a worktree precondition; on
a merged pull the new commits are counted by iterating the log from the
new HEAD until the old HEAD hash appears. -/
def pullM (env : SyncEnv) (cfg : Option AuthConfig) : Except String PullResult :=
  if ¬ env.initialized then .error "repository not initialized"
  else if ¬ env.worktreeOk then .error "failed to get worktree"
  else
    match env.origin with
    | none => .error "failed to get remote"
    | some urls =>
      match urls.head? with
      | none => .error "no remote URL configured"
      | some url0 =>
        match resolveAuth env cfg url0 with
        | .error e => .error ("failed to get auth: " ++ e)
        | .ok _ =>
          match env.transport with
          | .error .alreadyUpToDate => .ok ⟨true, "Already up to date", false, 0⟩
          | .error (.other m) => .error ("failed to pull: " ++ m)
          | .ok _ =>
            let newCommits :=
              match env.headBefore, env.headAfter with
              | some hb, some ha =>
                if hb ≠ ha then
                  ((reachList env.graph ha).takeWhile fun c => c ≠ hb).length
                else 0
              | _, _ => 0
            .ok ⟨true, "Pull successful", true, newCommits⟩

/-- Fetch of the sync layer: like Push with the fetch refspec; the
already-up-to-date error is again normalized to success. -/
def fetchM (env : SyncEnv) (cfg : Option AuthConfig) : Except String FetchResult :=
  if ¬ env.initialized then .error "repository not initialized"
  else
    match env.origin with
    | none => .error "failed to get remote"
    | some urls =>
      match urls.head? with
      | none => .error "no remote URL configured"
      | some url0 =>
        match resolveAuth env cfg url0 with
        | .error e => .error ("failed to get auth: " ++ e)
        | .ok _ =>
          match env.transport with
          | .error .alreadyUpToDate => .ok ⟨true, "Already up to date"⟩
          | .error (.other m) => .error ("failed to fetch: " ++ m)
          | .ok _ => .ok ⟨true, "Fetch successful"⟩

/-- The action of one tree-to-tree change. -/
inductive ChangeAction where
  | insert
  | delete
  | modify
deriving DecidableEq, Repr

/-- One change of a tree-to-tree diff (object.Change): the action and
the names on the from and to sides. -/
structure Change where
  action : ChangeAction
  fromName : String
  toName : String
deriving DecidableEq, Repr

/-- Tree-to-tree diff of the plumbing layer: a deletion per path only
in the first tree, a modification per path bound to different blobs,
an insertion per path only in the second tree. -/
def treeDiff (t1 t2 : List (String × String)) : List Change :=
  (t1.filterMap fun e =>
    match t2.lookup e.1 with
    | none => some ⟨.delete, e.1, ""⟩
    | some h2 => if e.2 = h2 then none else some ⟨.modify, e.1, e.1⟩) ++
  (t2.filterMap fun e =>
    match t1.lookup e.1 with
    | none => some ⟨.insert, "", e.1⟩
    | some _ => none)

/-- FileDiff as far as GetDiff shapes it: the classified action and the
path (the line-level patch content is plumbing output, not needed for
the file-list claims). -/
structure FileDiffM where
  Path : String
  Action : String
deriving DecidableEq, Repr

/-- changeToFileDiff of internal/git/history.go (the action switch):
insertions are added at the to-name, deletions deleted at the
from-name, modifications modified at the to-name. -/
def changeToFileDiff (c : Change) : FileDiffM :=
  match c.action with
  | .insert => ⟨c.toName, "added"⟩
  | .delete => ⟨c.fromName, "deleted"⟩
  | .modify => ⟨c.toName, "modified"⟩

/-- CommitDiffResult of internal/git/history.go. -/
structure CommitDiffRes where
  FromCommit : String
  ToCommit : String
  Files : List FileDiffM
deriving DecidableEq, Repr

/-- The repository data GetDiff reads. -/
structure HistRepo where
  initialized : Bool
  commits : List (String × CommitObj)

/-- The first seven characters of a hash string. -/
def take7 (s : String) : String := String.mk (s.data.take 7)

/-- GetDiff (history.go lines 226 to 270): resolves both commits,
diffs their trees, and converts each change to a FileDiff. -/
def getDiff (r : HistRepo) (fromHash toHash : String) : Except String CommitDiffRes :=
  if ¬ r.initialized then .error "repository not initialized"
  else
    match r.commits.lookup fromHash with
    | none => .error "from commit not found"
    | some fc =>
      match r.commits.lookup toHash with
      | none => .error "to commit not found"
      | some tc =>
        let changes := treeDiff fc.tree tc.tree
        .ok ⟨take7 fromHash, take7 toHash, changes.map changeToFileDiff⟩

/-- A staged difference at a path: the index differs from HEAD with one
of the staged codes. -/
def hasStagedDiff (e : FileStatusEntry) : Prop :=
  e.Staging = .Modified ∨ e.Staging = .Added ∨ e.Staging = .Deleted

/-- An unstaged difference at a path: the working tree differs from the
index on a tracked file. -/
def hasUnstagedDiff (e : FileStatusEntry) : Prop :=
  e.Worktree = .Modified ∨ e.Worktree = .Deleted

/-- A repository with one commit tracking a.txt, a clean index, and one
extra untracked working-tree file new.txt. -/
def repoC3pre : RepoState :=
  ⟨[("c0", ⟨[("a.txt", "b1")], [], "init", "A", "a@x.io"⟩)], some "c0",
    [("a.txt", "b1")], [("a.txt", "b1"), ("new.txt", "b2")]⟩

/-- The candidate destinations ensureUniquePath considers, in order:
the base path, then basePath-1 through basePath-999. -/
def uniqueCandidates (basePath : String) : List String :=
  basePath :: (List.range' 1 999).map (numberedCandidate basePath)

lemma lookup_some_mem_keys {α β : Type} [BEq α] [LawfulBEq α]
    {l : List (α × β)} {p : α} {v : β} (h : l.lookup p = some v) :
    p ∈ l.map Prod.fst := by
  induction l with
  | nil => simp [List.lookup] at h
  | cons e es ih =>
    rw [List.lookup] at h
    by_cases hp : p = e.1
    · simp [hp]
    · have : (p == e.1) = false := beq_false_of_ne hp
      rw [this] at h
      exact List.mem_cons_of_mem _ (ih h)

lemma lookup_eq_none_of_not_mem_keys {α β : Type} [BEq α] [LawfulBEq α]
    {l : List (α × β)} {p : α} (h : p ∉ l.map Prod.fst) :
    l.lookup p = none := by
  cases hl : l.lookup p with
  | none => rfl
  | some v => exact absurd (lookup_some_mem_keys hl) h

lemma lookup_of_mem_of_nodup {α β : Type} [BEq α] [LawfulBEq α]
    {l : List (α × β)} {p : α} {v : β}
    (hnd : (l.map Prod.fst).Nodup) (hmem : (p, v) ∈ l) :
    l.lookup p = some v := by
  induction l with
  | nil => simp at hmem
  | cons e es ih =>
    rw [List.map_cons, List.nodup_cons] at hnd
    rcases List.mem_cons.mp hmem with he | he
    · rw [← he, List.lookup]
      simp
    · have hp : p ≠ e.1 := by
        rintro rfl
        exact hnd.1 (List.mem_map.mpr ⟨(e.1, v), he, rfl⟩)
      rw [List.lookup]
      have : (p == e.1) = false := beq_false_of_ne hp
      rw [this]
      exact ih hnd.2 he

lemma statusFiles_paths_sublist (m : List (String × FileStatusEntry)) :
    ((statusFiles m).map FileStatus.Path).Sublist (m.map Prod.fst) := by
  induction m with
  | nil => simp [statusFiles]
  | cons e es ih =>
    rw [statusFiles, List.filterMap_cons]
    cases classifyFile e.2 with
    | none => exact ih.cons e.1
    | some sb => exact (List.map_cons _ _ _) ▸ ih.cons₂ e.1

lemma mem_statusFiles_path (m : List (String × FileStatusEntry))
    {f : FileStatus} (hf : f ∈ statusFiles m) :
    f.Path ∈ m.map Prod.fst :=
  (statusFiles_paths_sublist m).subset (List.mem_map_of_mem FileStatus.Path hf)

lemma classifyFile_of_both_diffs {e : FileStatusEntry}
    (hs : hasStagedDiff e) (hu : hasUnstagedDiff e) :
    ∃ s, classifyFile e = some (s, true) := by
  obtain ⟨sc, wc⟩ := e
  rcases hs with h | h | h <;> rcases hu with h' | h' <;>
    (cases h; cases h')
  · exact ⟨"modified", rfl⟩
  · exact ⟨"modified", rfl⟩
  · exact ⟨"modified", rfl⟩
  · exact ⟨"deleted", rfl⟩
  · exact ⟨"modified", rfl⟩
  · exact ⟨"deleted", rfl⟩

lemma statusFiles_cons (q : String) (eq : FileStatusEntry)
    (tl : List (String × FileStatusEntry)) :
    statusFiles ((q, eq) :: tl) =
      (match classifyFile eq with
       | none => statusFiles tl
       | some sb => ⟨q, sb.1, sb.2⟩ :: statusFiles tl) := by
  rw [statusFiles, List.filterMap_cons]
  cases classifyFile eq <;> rfl

lemma statusFiles_countP_unique (m : List (String × FileStatusEntry))
    (p : String) (e : FileStatusEntry) (s : String) (b : Bool)
    (hnd : (m.map Prod.fst).Nodup) (hmem : (p, e) ∈ m)
    (hc : classifyFile e = some (s, b)) :
    ((statusFiles m).countP fun f => f.Path == p) = 1 ∧
      ∀ f ∈ statusFiles m, f.Path = p → f = ⟨p, s, b⟩ := by
  induction m with
  | nil => simp at hmem
  | cons hd tl ih =>
    obtain ⟨q, eq⟩ := hd
    rw [List.map_cons, List.nodup_cons] at hnd
    rcases List.mem_cons.mp hmem with he | he
    · have hq : q = p := (congrArg Prod.fst he).symm
      have heq : eq = e := (congrArg Prod.snd he).symm
      subst hq heq
      rw [statusFiles_cons, hc]
      have h0 : ((statusFiles tl).countP fun f => f.Path == q) = 0 := by
        apply List.countP_eq_zero.mpr
        intro f hf
        have := mem_statusFiles_path tl hf
        simp only [beq_iff_eq]
        rintro rfl
        exact hnd.1 this
      constructor
      · rw [List.countP_cons, h0]
        simp
      · intro f hf hfp
        rcases List.mem_cons.mp hf with hf | hf
        · exact hf
        · have := mem_statusFiles_path tl hf
          rw [hfp] at this
          exact absurd this hnd.1
    · have hp : p ∈ tl.map Prod.fst := List.mem_map.mpr ⟨(p, e), he, rfl⟩
      have hne : q ≠ p := by
        rintro rfl
        exact hnd.1 hp
      obtain ⟨h1, h2⟩ := ih hnd.2 he
      rw [statusFiles_cons]
      cases hcl : classifyFile eq with
      | none => exact ⟨h1, h2⟩
      | some sb =>
        constructor
        · rw [List.countP_cons, h1]
          have hb : (FileStatus.Path ⟨q, sb.1, sb.2⟩ == p) = false :=
            beq_false_of_ne hne
          simp [hb]
        · intro f hf hfp
          rcases List.mem_cons.mp hf with hf | hf
          · rw [hf] at hfp
            exact absurd hfp hne
          · exact h2 f hf hfp

/-- C1 counterexample: a staged-added file that was modified again in
the working tree (staging Added, worktree Modified) is classified
modified by the code, while the precedence claimed by the spec
(untracked over conflicted over staged-added over modified over
deleted) would classify it added. -/
theorem status_precedence_counterexample :
    (classifyFile ⟨.Added, .Modified⟩).map Prod.fst = some "modified" ∧
    specChoose precedenceClaimed ⟨.Added, .Modified⟩ = some "added" ∧
    (some "modified" : Option String) ≠ some "added" := by
  refine ⟨rfl, rfl, by decide⟩

/-- C1 amended: Status assigns each changed path exactly one status
kind (the emitted path list stays duplicate-free), and the kind is the
first whose condition holds in the order untracked, modified, deleted,
staged-added, conflicted, with a final fallback classifying any
remaining non-unmodified staging state as modified. -/
theorem status_precedence_amended :
    (∀ fs : FileStatusEntry,
        (classifyFile fs).map Prod.fst = specChoose precedenceOfCode fs) ∧
    (∀ m : List (String × FileStatusEntry), (m.map Prod.fst).Nodup →
        ((statusFiles m).map FileStatus.Path).Nodup) := by
  constructor
  · intro fs
    obtain ⟨sc, wc⟩ := fs
    cases sc <;> cases wc <;> rfl
  · intro m hnd
    exact (statusFiles_paths_sublist m).nodup hnd

/-- Witness for the amended C1: on a two-entry status map the emitted
path list is duplicate-free. -/
theorem status_precedence_amended_witness :
    ((statusFiles [("a.md", ⟨.Modified, .Unmodified⟩),
        ("b.md", ⟨.Added, .Unmodified⟩)]).map FileStatus.Path).Nodup :=
  status_precedence_amended.2 _ (by decide)

/-- C2 counterexample: a path with a staged and an unstaged
modification (staging Modified, worktree Modified) yields exactly one
aggregate entry, marked staged, and no entry with staged false — not
the two entries (one per staging state) the spec claims. -/
theorem status_two_entries_counterexample :
    statusFiles [("a.md", ⟨.Modified, .Modified⟩)] =
      [⟨"a.md", "modified", true⟩] ∧
    ((statusFiles [("a.md", ⟨.Modified, .Modified⟩)]).countP
        fun f => f.Path == "a.md") = 1 ∧
    ((statusFiles [("a.md", ⟨.Modified, .Modified⟩)]).countP
        fun f => !f.Staged) = 0 := by
  refine ⟨rfl, rfl, rfl⟩

/-- C2 amended: a path with simultaneous staged and unstaged
differences appears as exactly one logical entry in the aggregate file
list, and that entry carries staged = true. -/
theorem status_single_entry_amended (m : List (String × FileStatusEntry))
    (p : String) (e : FileStatusEntry)
    (hnd : (m.map Prod.fst).Nodup) (hmem : (p, e) ∈ m)
    (hs : hasStagedDiff e) (hu : hasUnstagedDiff e) :
    ((statusFiles m).countP fun f => f.Path == p) = 1 ∧
      ∀ f ∈ statusFiles m, f.Path = p → f.Staged = true := by
  obtain ⟨s, hc⟩ := classifyFile_of_both_diffs hs hu
  obtain ⟨h1, h2⟩ := statusFiles_countP_unique m p e s true hnd hmem hc
  refine ⟨h1, fun f hf hfp => ?_⟩
  rw [h2 f hf hfp]

/-- Witness for the amended C2: a concrete map with one doubly-changed
path has exactly one staged entry for it. -/
theorem status_single_entry_amended_witness :
    ((statusFiles [("a.md", ⟨.Modified, .Modified⟩), ("b.md", ⟨.Unmodified, .Untracked⟩)]).countP
        fun f => f.Path == "a.md") = 1 ∧
      ∀ f ∈ statusFiles [("a.md", ⟨.Modified, .Modified⟩), ("b.md", ⟨.Unmodified, .Untracked⟩)],
        f.Path = "a.md" → f.Staged = true :=
  status_single_entry_amended _ "a.md" ⟨.Modified, .Modified⟩ (by decide)
    (by decide) (Or.inl rfl) (Or.inl rfl)

/-- C3, the code side at the failing input: a repository with one
commit tracking a.txt and an untracked file new.txt shows exactly one
untracked entry; after Stage then Unstage of new.txt the status list is
empty, because Unstage removed the file from the working tree as well
(git rm semantics), so the round trip is not status-preserving. -/
theorem stage_unstage_roundtrip_bug :
    statusFilesOf repoC3pre = [⟨"new.txt", "untracked", false⟩] ∧
    ((stageM repoC3pre ["new.txt"] >>= fun st1 =>
        unstageM st1 ["new.txt"]).map statusFilesOf) = .ok [] ∧
    ((stageM repoC3pre ["new.txt"] >>= fun st1 =>
        unstageM st1 ["new.txt"]).map
          fun st => st.worktree.lookup "new.txt") = .ok none := by
  refine ⟨by decide, rfl, rfl⟩

lemma mem_statePaths_of_head {st : RepoState} {p : String} {v : String}
    (h : (headTree st).lookup p = some v) : p ∈ statePaths st := by
  rw [statePaths, List.mem_dedup]
  exact List.mem_append.mpr (Or.inl (List.mem_append.mpr
    (Or.inl (lookup_some_mem_keys h))))

lemma mem_statePaths_of_index {st : RepoState} {p : String} {v : String}
    (h : st.index.lookup p = some v) : p ∈ statePaths st := by
  rw [statePaths, List.mem_dedup]
  exact List.mem_append.mpr (Or.inl (List.mem_append.mpr
    (Or.inr (lookup_some_mem_keys h))))

lemma stagingCode_staged_iff (st : RepoState) (p : String) :
    (stagingCode st p ≠ .Unmodified ∧ stagingCode st p ≠ .Untracked) ↔
      st.index.lookup p ≠ (headTree st).lookup p := by
  rcases hh : (headTree st).lookup p with _ | hv <;>
    rcases hi : st.index.lookup p with _ | iv <;>
      simp [stagingCode, hh, hi]
  by_cases hveq : hv = iv
  · subst hveq
    simp
  · simp [hveq]
    exact fun h => hveq h.symm

lemma hasStagedChanges_iff (st : RepoState) :
    hasStagedChanges st = true ↔
      ∃ p, st.index.lookup p ≠ (headTree st).lookup p := by
  rw [hasStagedChanges, List.any_eq_true]
  constructor
  · rintro ⟨x, hx, hcond⟩
    rw [statusMapOf, List.mem_map] at hx
    obtain ⟨p, _, rfl⟩ := hx
    simp only [Bool.and_eq_true, bne_iff_ne] at hcond
    exact ⟨p, (stagingCode_staged_iff st p).mp hcond⟩
  · rintro ⟨p, hp⟩
    refine ⟨(p, ⟨stagingCode st p, worktreeCode st p⟩), ?_, ?_⟩
    · rw [statusMapOf, List.mem_map]
      refine ⟨p, ?_, rfl⟩
      rcases hi : st.index.lookup p with _ | v
      · rcases hh : (headTree st).lookup p with _ | w
        · rw [hi, hh] at hp
          exact absurd rfl hp
        · exact mem_statePaths_of_head hh
      · exact mem_statePaths_of_index hi
    · simp only [Bool.and_eq_true, bne_iff_ne]
      exact (stagingCode_staged_iff st p).mpr hp

lemma wtAdd_preserves {st : RepoState} {p : String} {st' : RepoState}
    (h : wtAdd st p = .ok st') :
    st'.headRef = st.headRef ∧ st'.commits = st.commits := by
  rw [wtAdd] at h
  split at h
  · obtain rfl := Except.ok.inj h
    exact ⟨rfl, rfl⟩
  · split at h
    · obtain rfl := Except.ok.inj h
      exact ⟨rfl, rfl⟩
    · exact absurd h (by simp)

lemma stageM_preserves (paths : List String) :
    ∀ st st' : RepoState, stageM st paths = .ok st' →
      st'.headRef = st.headRef ∧ st'.commits = st.commits := by
  induction paths with
  | nil =>
    intro st st' h
    obtain rfl := Except.ok.inj h
    exact ⟨rfl, rfl⟩
  | cons p ps ih =>
    intro st st' h
    rw [stageM, List.foldlM_cons] at h
    rcases ha : wtAdd st p with e | st1
    · rw [ha] at h
      have hred : ((Except.error e : Except String RepoState) >>= fun s =>
          List.foldlM wtAdd s ps) = Except.error e := rfl
      rw [hred] at h
      exact absurd h (by simp)
    · rw [ha] at h
      have h2 : stageM st1 ps = .ok st' := h
      obtain ⟨e1, e2⟩ := wtAdd_preserves ha
      obtain ⟨f1, f2⟩ := ih st1 st' h2
      exact ⟨f1.trans e1, f2.trans e2⟩

/-- C4: Commit fails with the empty-message error whenever the message
is blank, for any repository state; otherwise the Files argument (when
non-empty) is staged first and, if the index then agrees with HEAD
everywhere (no staged changes), Commit fails with the nothing-staged
error; otherwise it writes a new commit whose parent list is exactly
the current HEAD, with the synthetic default identity substituted for
omitted author fields. -/
theorem commit_behavior (st : RepoState) (opts : CommitOpts) (nh : String) :
    (opts.Message = "" → commitM st opts nh = .error .emptyMessage) ∧
    (∀ st1, opts.Message ≠ "" →
      (if opts.Files ≠ [] then stageM st opts.Files else .ok st) = .ok st1 →
      ((∀ p, st1.index.lookup p = (headTree st1).lookup p) →
          commitM st opts nh = .error .nothingStaged) ∧
      ((∃ p, st1.index.lookup p ≠ (headTree st1).lookup p) →
          ∃ info st2, commitM st opts nh = .ok (info, st2) ∧
            st2.headRef = some nh ∧
            st2.commits.lookup nh = some
              ⟨st1.index, st.headRef.toList, opts.Message,
                if opts.AuthorName = "" then "Inkwell User" else opts.AuthorName,
                if opts.AuthorEmail = "" then "user@inkwell.local" else opts.AuthorEmail⟩ ∧
            info.Message = opts.Message ∧
            info.Author =
              (if opts.AuthorName = "" then "Inkwell User" else opts.AuthorName) ∧
            info.Email =
              (if opts.AuthorEmail = "" then "user@inkwell.local" else opts.AuthorEmail))) := by
  constructor
  · intro h
    rw [commitM, if_pos h]
  · intro st1 hmsg hstage
    have hpres : st1.headRef = st.headRef := by
      by_cases hf : opts.Files = []
      · rw [if_neg (by simpa using hf)] at hstage
        obtain rfl := Except.ok.inj hstage
        rfl
      · rw [if_pos hf] at hstage
        exact (stageM_preserves opts.Files st st1 hstage).1
    constructor
    · intro hall
      have hns : ¬ hasStagedChanges st1 = true := by
        intro h
        obtain ⟨p, hp⟩ := (hasStagedChanges_iff st1).mp h
        exact hp (hall p)
      rw [commitM, if_neg hmsg, hstage]
      exact if_pos hns
    · intro hex
      have hs : hasStagedChanges st1 = true := (hasStagedChanges_iff st1).mpr hex
      refine ⟨⟨nh, String.mk (nh.data.take 7), opts.Message,
          if opts.AuthorName = "" then "Inkwell User" else opts.AuthorName,
          if opts.AuthorEmail = "" then "user@inkwell.local" else opts.AuthorEmail⟩,
        { st1 with
            commits := (nh, ⟨st1.index, st1.headRef.toList, opts.Message,
              if opts.AuthorName = "" then "Inkwell User" else opts.AuthorName,
              if opts.AuthorEmail = "" then "user@inkwell.local" else opts.AuthorEmail⟩)
              :: st1.commits,
            headRef := some nh },
        ?_, rfl, ?_, rfl, rfl, rfl⟩
      · rw [commitM, if_neg hmsg, hstage]
        exact if_neg (by simp [hs])
      · rw [← hpres, List.lookup]
        simp

/-- Witness for C4 at concrete inputs: the blank message fails, the
clean repository fails with nothing staged, and a staged new file
commits. -/
theorem commit_behavior_witness :
    commitM ⟨[], none, [("f.md", "b")], [("f.md", "b")]⟩ ⟨"", "", "", []⟩ "h1"
        = .error .emptyMessage ∧
    commitM ⟨[], none, [], []⟩ ⟨"msg", "", "", []⟩ "h1" = .error .nothingStaged ∧
    (∃ info st2,
      commitM ⟨[], none, [("f.md", "b")], [("f.md", "b")]⟩ ⟨"msg", "", "", []⟩ "h1"
          = .ok (info, st2) ∧
        st2.headRef = some "h1" ∧
        st2.commits.lookup "h1" = some
          ⟨[("f.md", "b")], [], "msg", "Inkwell User", "user@inkwell.local"⟩ ∧
        info.Message = "msg" ∧
        info.Author = "Inkwell User" ∧
        info.Email = "user@inkwell.local") := by
  refine ⟨(commit_behavior _ _ _).1 rfl, ?_, ?_⟩
  · exact ((commit_behavior ⟨[], none, [], []⟩ ⟨"msg", "", "", []⟩ "h1").2
      ⟨[], none, [], []⟩ (by decide) rfl).1 (fun p => rfl)
  · exact ((commit_behavior ⟨[], none, [("f.md", "b")], [("f.md", "b")]⟩
      ⟨"msg", "", "", []⟩ "h1").2 ⟨[], none, [("f.md", "b")], [("f.md", "b")]⟩
      (by decide) rfl).2 ⟨"f.md", by decide⟩

lemma goHasPre_iff (s pre : String) : goHasPre s pre = true ↔ pre.data <+: s.data := by
  rw [goHasPre]
  exact List.isPrefixOf_iff_prefix

lemma goHasPre_of_pre {s p q : String} (hpq : p.data <+: q.data)
    (h : goHasPre s q = true) : goHasPre s p = true :=
  (goHasPre_iff s p).mpr (hpq.trans ((goHasPre_iff s q).mp h))

lemma httpShaped_not_sshShaped {url : String} (hh : httpShaped url) :
    ¬ sshShaped url := by
  intro hs
  have hD : goHasPre (asciiLower url) "http" = true := by
    rcases hh with h | h
    · exact goHasPre_of_pre (by decide) h
    · exact goHasPre_of_pre (by decide) h
  have noPre : ∀ a : String, ¬ (a.data <+: "https://".data) → ¬ ("https://".data <+: a.data) →
      ¬ (a.data <+: "http://".data) → ¬ ("http://".data <+: a.data) →
      goHasPre (asciiLower url) a = true → False := by
    intro a n1 n2 n3 n4 ha
    rcases hh with h | h
    · rcases List.prefix_or_prefix_of_prefix ((goHasPre_iff _ _).mp ha)
        ((goHasPre_iff _ _).mp h) with hq | hq
      · exact n1 hq
      · exact n2 hq
    · rcases List.prefix_or_prefix_of_prefix ((goHasPre_iff _ _).mp ha)
        ((goHasPre_iff _ _).mp h) with hq | hq
      · exact n3 hq
      · exact n4 hq
  rcases hs with h | h | h
  · exact noPre "git@" (by decide) (by decide) (by decide) (by decide) h
  · exact noPre "ssh://" (by decide) (by decide) (by decide) (by decide) h
  · exact h.2 hD

/-- C8 counterexample: the URL user@example.com is neither a git@ nor
an ssh:// shape, so the spec classifies it none, but DetectAuthType
returns ssh because it contains an at sign and lacks an http prefix. -/
theorem detect_auth_counterexample :
    detectAuthType "user@example.com" = .ssh ∧
    specAuthClass "user@example.com" = .none ∧
    AuthType.ssh ≠ AuthType.none := by
  exact ⟨by decide, by decide, by decide⟩

/-- C8 amended: DetectAuthType returns ssh exactly for URLs that start
with git@ or ssh://, or contain an at sign without starting with http
(after ASCII lowercasing); https exactly for URLs starting with
https:// or http://; and none exactly when neither shape applies. -/
theorem detect_auth_amended (url : String) :
    (detectAuthType url = .ssh ↔ sshShaped url) ∧
    (detectAuthType url = .https ↔ httpShaped url) ∧
    (detectAuthType url = .none ↔ ¬ sshShaped url ∧ ¬ httpShaped url) := by
  by_cases hs : sshShaped url
  · have hd : detectAuthType url = .ssh := by
      rw [detectAuthType]
      exact if_pos hs
    rw [hd]
    exact ⟨iff_of_true rfl hs,
      iff_of_false (by decide) (fun hh => httpShaped_not_sshShaped hh hs),
      iff_of_false (by decide) (fun hc => hc.1 hs)⟩
  · by_cases hh : httpShaped url
    · have hd : detectAuthType url = .https := by
        rw [detectAuthType]
        exact (if_neg hs).trans (if_pos hh)
      rw [hd]
      exact ⟨iff_of_false (by decide) hs, iff_of_true rfl hh,
        iff_of_false (by decide) (fun hc => hc.2 hh)⟩
    · have hd : detectAuthType url = .none := by
        rw [detectAuthType]
        exact (if_neg hs).trans (if_neg hh)
      rw [hd]
      exact ⟨iff_of_false (by decide) hs, iff_of_false (by decide) hh,
        iff_of_true rfl ⟨hs, hh⟩⟩

/-- Witness for the amended C8 at a concrete ssh URL. -/
theorem detect_auth_amended_witness :
    detectAuthType "git@github.com:user/repo.git" = .ssh :=
  (detect_auth_amended "git@github.com:user/repo.git").1.mpr (Or.inl (by decide))

lemma treeDiff_self (t : List (String × String))
    (hnd : (t.map Prod.fst).Nodup) : treeDiff t t = [] := by
  rw [treeDiff]
  refine List.append_eq_nil.mpr ⟨?_, ?_⟩
  · apply List.filterMap_eq_nil_iff.mpr
    intro e he
    obtain ⟨p, v⟩ := e
    have hl : t.lookup p = some v := lookup_of_mem_of_nodup hnd he
    simp [hl]
  · apply List.filterMap_eq_nil_iff.mpr
    intro e he
    obtain ⟨p, v⟩ := e
    have hl : t.lookup p = some v := lookup_of_mem_of_nodup hnd he
    simp [hl]

/-- C9: diffing a commit against itself succeeds and yields an empty
per-file list. -/
theorem getDiff_same_commit (r : HistRepo) (h : String) (c : CommitObj)
    (hinit : r.initialized = true)
    (hc : r.commits.lookup h = some c)
    (hnd : (c.tree.map Prod.fst).Nodup) :
    getDiff r h h = .ok ⟨take7 h, take7 h, []⟩ := by
  simp [getDiff, hinit, hc, treeDiff_self c.tree hnd]

/-- Witness for C9 on a one-commit repository. -/
theorem getDiff_same_commit_witness :
    getDiff ⟨true, [("aaaaaaa0", ⟨[("f.md", "b")], [], "m", "A", "E"⟩)]⟩
        "aaaaaaa0" "aaaaaaa0" = .ok ⟨"aaaaaaa", "aaaaaaa", []⟩ := by
  rw [getDiff_same_commit ⟨true, [("aaaaaaa0", ⟨[("f.md", "b")], [], "m", "A", "E"⟩)]⟩
    "aaaaaaa0" ⟨[("f.md", "b")], [], "m", "A", "E"⟩ rfl rfl (by decide)]
  rfl

lemma tryNumbered_eq_find (fs : FileSys) (b : String) :
    ∀ fuel i, tryNumbered fs b i fuel =
      (((List.range' i fuel).map (numberedCandidate b)).find? fs.statNotExist) := by
  intro fuel
  induction fuel with
  | zero => intro i; rfl
  | succ n ih =>
    intro i
    rw [List.range'_succ, List.map_cons, List.find?_cons]
    cases hfree : fs.statNotExist (numberedCandidate b i)
    · simp only [tryNumbered, hfree]
      exact ih (i + 1)
    · simp [tryNumbered, hfree]

set_option maxRecDepth 8000 in
/-- C6 counterexample: in a filesystem state where the base path and
every numbered candidate already exist, ensureUniquePath falls back to
the still-colliding base path, so not every collision is resolved. -/
theorem clone_unique_counterexample :
    ensureUniquePath ⟨fun _ => false⟩ "repos/site" = "repos/site" ∧
    (FileSys.statNotExist ⟨fun _ => false⟩ "repos/site") = false := by
  exact ⟨by decide, rfl⟩

/-- C6 amended: with no explicit destination, Clone derives the name
from the URL and picks the first free path among the base path and
base-1 through base-999 (falling back to the colliding base path when
all one thousand candidates are taken); and on transport-level clone
failure the destination directory is removed before the error
returns. -/
theorem clone_dest_amended :
    (∀ (fs : FileSys) (basePath : String),
        ensureUniquePath fs basePath =
          ((uniqueCandidates basePath).find? fs.statNotExist).getD basePath) ∧
    (∀ (env : CloneEnv) (opts : CloneOpts) (e : String),
        env.mkdirAllOk (env.dirName (cloneDestPath env opts)) = true →
        env.authResult = .ok () →
        env.cloneResult (cloneDestPath env opts) = .error e →
        (cloneWithProgress env opts).result = .error ("clone failed: " ++ e) ∧
        cloneDestPath env opts ∈ (cloneWithProgress env opts).removed) := by
  constructor
  · intro fs b
    rw [ensureUniquePath, uniqueCandidates, List.find?_cons]
    cases hb : fs.statNotExist b
    · rw [if_neg (by simp [hb])]
      rw [tryNumbered_eq_find fs b 999 1]
      cases hf : ((List.range' 1 999).map (numberedCandidate b)).find? fs.statNotExist <;>
        rfl
    · rw [if_pos (by simp [hb])]
      rfl
  · intro env opts e hmk hauth hclone
    constructor <;> simp [cloneWithProgress, hmk, hauth, hclone]

/-- Witness for the amended C6: a free base path is kept as is, and a
failing clone removes its derived destination. -/
theorem clone_dest_amended_witness :
    ensureUniquePath ⟨fun _ => true⟩ "repos/x" = "repos/x" ∧
    ((cloneWithProgress
        ⟨"repos", ⟨fun _ => true⟩, fun _ => "repos", fun _ => true, .ok (),
          fun _ => .error "boom", some "main"⟩
        ⟨"https://h/x.git", "", "", 0⟩).result = .error "clone failed: boom" ∧
      cloneDestPath
        ⟨"repos", ⟨fun _ => true⟩, fun _ => "repos", fun _ => true, .ok (),
          fun _ => .error "boom", some "main"⟩
        ⟨"https://h/x.git", "", "", 0⟩ ∈
      (cloneWithProgress
        ⟨"repos", ⟨fun _ => true⟩, fun _ => "repos", fun _ => true, .ok (),
          fun _ => .error "boom", some "main"⟩
        ⟨"https://h/x.git", "", "", 0⟩).removed) := by
  refine ⟨(clone_dest_amended.1 ⟨fun _ => true⟩ "repos/x").trans rfl, ?_⟩
  exact clone_dest_amended.2
    ⟨"repos", ⟨fun _ => true⟩, fun _ => "repos", fun _ => true, .ok (),
      fun _ => .error "boom", some "main"⟩
    ⟨"https://h/x.git", "", "", 0⟩ "boom" rfl rfl rfl

/-- C10: with an explicitly supplied destination the collision-avoiding
suffix scheme is skipped (the destination is used verbatim), and on
clone failure the destination directory is removed — also when the stat
oracle says the directory already existed before the call. -/
theorem clone_explicit_dest_removed (env : CloneEnv) (opts : CloneOpts) (e : String)
    (hdest : opts.DestPath ≠ "")
    (_hexist : env.fs.statNotExist opts.DestPath = false)
    (hmk : env.mkdirAllOk (env.dirName opts.DestPath) = true)
    (hauth : env.authResult = .ok ())
    (hclone : env.cloneResult opts.DestPath = .error e) :
    cloneDestPath env opts = opts.DestPath ∧
    (cloneWithProgress env opts).result = .error ("clone failed: " ++ e) ∧
    (cloneWithProgress env opts).removed = [opts.DestPath] := by
  have hd : cloneDestPath env opts = opts.DestPath := by
    rw [cloneDestPath, if_neg hdest]
  refine ⟨hd, ?_, ?_⟩ <;> simp [cloneWithProgress, hd, hmk, hauth, hclone]

/-- Witness for C10: a pre-existing explicit destination is still the
one removed when the clone fails. -/
theorem clone_explicit_dest_removed_witness :
    (cloneWithProgress
        ⟨"repos", ⟨fun _ => false⟩, fun _ => "parent", fun _ => true, .ok (),
          fun _ => .error "netdown", some "main"⟩
        ⟨"https://h/x.git", "docs", "", 0⟩).result = .error "clone failed: netdown" ∧
    (cloneWithProgress
        ⟨"repos", ⟨fun _ => false⟩, fun _ => "parent", fun _ => true, .ok (),
          fun _ => .error "netdown", some "main"⟩
        ⟨"https://h/x.git", "docs", "", 0⟩).removed = ["docs"] :=
  (clone_explicit_dest_removed
    ⟨"repos", ⟨fun _ => false⟩, fun _ => "parent", fun _ => true, .ok (),
      fun _ => .error "netdown", some "main"⟩
    ⟨"https://h/x.git", "docs", "", 0⟩ "netdown" (by decide) rfl rfl rfl rfl).2

/-- C7: whenever the transport layer reports the already-up-to-date
sentinel, Push, Pull and Fetch all return a successful result carrying
the informational message, never an error. -/
theorem sync_already_up_to_date (env : SyncEnv) (cfg : Option AuthConfig)
    (urls : List String) (url0 : String) (a : Option AuthMethod)
    (hinit : env.initialized = true)
    (hwt : env.worktreeOk = true)
    (horig : env.origin = some urls)
    (hurl : urls.head? = some url0)
    (hauth : resolveAuth env cfg url0 = .ok a)
    (htr : env.transport = .error .alreadyUpToDate) :
    pushM env cfg = .ok ⟨true, "Already up to date"⟩ ∧
    pullM env cfg = .ok ⟨true, "Already up to date", false, 0⟩ ∧
    fetchM env cfg = .ok ⟨true, "Already up to date"⟩ := by
  refine ⟨?_, ?_, ?_⟩ <;>
    simp [pushM, pullM, fetchM, hinit, hwt, horig, hurl, hauth, htr]

/-- Witness for C7 on a concrete https remote with defaulted
credentials. -/
theorem sync_already_up_to_date_witness :
    pushM ⟨true, true, some ["https://h/r.git"], fun _ _ => .error "nokey",
        .error .alreadyUpToDate, [], none, none⟩ none
      = .ok ⟨true, "Already up to date"⟩ ∧
    pullM ⟨true, true, some ["https://h/r.git"], fun _ _ => .error "nokey",
        .error .alreadyUpToDate, [], none, none⟩ none
      = .ok ⟨true, "Already up to date", false, 0⟩ ∧
    fetchM ⟨true, true, some ["https://h/r.git"], fun _ _ => .error "nokey",
        .error .alreadyUpToDate, [], none, none⟩ none
      = .ok ⟨true, "Already up to date"⟩ :=
  sync_already_up_to_date
    ⟨true, true, some ["https://h/r.git"], fun _ _ => .error "nokey",
      .error .alreadyUpToDate, [], none, none⟩ none
    ["https://h/r.git"] "https://h/r.git" none rfl rfl rfl rfl rfl rfl

lemma lookup_isSome_of_mem_keys {g : List (String × List String)} {x : String}
    (h : x ∈ g.map Prod.fst) : ∃ v, g.lookup x = some v := by
  induction g with
  | nil => simp at h
  | cons e es ih =>
    obtain ⟨k, v⟩ := e
    rw [List.lookup]
    by_cases hk : x = k
    · simp [hk]
    · rw [beq_false_of_ne hk]
      apply ih
      simp at h
      rcases h with h | h
      · exact absurd h hk
      · simpa using h

lemma lookupTake_none_iff (h : String) (g : List (String × List String)) :
    lookupTake h g = none ↔ g.lookup h = none := by
  induction g with
  | nil => simp [lookupTake, List.lookup]
  | cons e es ih =>
    obtain ⟨k, ps⟩ := e
    rw [lookupTake, List.lookup]
    by_cases he : k = h
    · subst he
      rw [if_pos rfl]
      simp
    · rw [if_neg he, beq_false_of_ne fun hh => he hh.symm]
      cases hlt : lookupTake h es with
      | none => simpa [hlt] using ih
      | some pr =>
        obtain ⟨qs, es'⟩ := pr
        constructor
        · intro hh
          simp at hh
        · intro hh
          have hcontra := ih.mpr (by simpa using hh)
          rw [hlt] at hcontra
          exact absurd hcontra (by simp)

lemma lookupTake_some_eq (g : List (String × List String)) :
    ∀ {h : String} {ps : List String} {g' : List (String × List String)},
    lookupTake h g = some (ps, g') →
    ∃ pre post, g = pre ++ (h, ps) :: post ∧ g' = pre ++ post ∧
      ∀ e ∈ pre, e.1 ≠ h := by
  induction g with
  | nil => intro h ps g' hlt; simp [lookupTake] at hlt
  | cons e es ih =>
    intro h ps g' hlt
    rw [lookupTake] at hlt
    by_cases he : e.1 = h
    · rw [if_pos he] at hlt
      have hinj := Option.some.inj hlt
      have h1 : e.2 = ps := congrArg Prod.fst hinj
      have h2 : es = g' := congrArg Prod.snd hinj
      have he' : e = (h, ps) := by
        obtain ⟨a, b⟩ := e
        simp only at he h1
        rw [he, h1]
      refine ⟨[], es, ?_, ?_, by simp⟩
      · rw [he']
        rfl
      · rw [← h2]
        rfl
    · rw [if_neg he] at hlt
      cases hlt2 : lookupTake h es with
      | none =>
        rw [hlt2] at hlt
        exact absurd hlt (by simp)
      | some pr =>
        obtain ⟨qs, es'⟩ := pr
        rw [hlt2] at hlt
        have hinj := Option.some.inj hlt
        have h1 : qs = ps := congrArg Prod.fst hinj
        have h2 : e :: es' = g' := congrArg Prod.snd hinj
        subst h1
        obtain ⟨pre, post, hg, hg', hpre⟩ := ih hlt2
        refine ⟨e :: pre, post, ?_, ?_, ?_⟩
        · rw [List.cons_append, ← hg]
        · rw [← h2, hg']
          rfl
        · intro e' he'
          rcases List.mem_cons.mp he' with rfl | he'
          · exact he
          · exact hpre e' he'

lemma lookup_append_of_keys_ne {β : Type} {pre : List (String × β)} {h : String}
    (hpre : ∀ e ∈ pre, e.1 ≠ h) (rest : List (String × β)) :
    (pre ++ rest).lookup h = rest.lookup h := by
  induction pre with
  | nil => rfl
  | cons e pre ih =>
    obtain ⟨k, v⟩ := e
    rw [List.cons_append, List.lookup]
    have hk : k ≠ h := hpre (k, v) (List.mem_cons_self _ _)
    rw [beq_false_of_ne fun hh => hk hh.symm]
    exact ih fun e he => hpre e (List.mem_cons_of_mem _ he)

lemma lookupTake_lookup {g : List (String × List String)} {h : String}
    {ps : List String} {g' : List (String × List String)}
    (hlt : lookupTake h g = some (ps, g')) : g.lookup h = some ps := by
  obtain ⟨pre, post, hg, _, hpre⟩ := lookupTake_some_eq g hlt
  rw [hg, lookup_append_of_keys_ne hpre, List.lookup]
  simp

lemma visitSize_append (g1 g2 : List (String × List String)) :
    visitSize (g1 ++ g2) = visitSize g1 + visitSize g2 := by
  rw [visitSize, visitSize, visitSize, List.map_append, List.sum_append]

lemma lookupTake_visitSize {g : List (String × List String)} {h : String}
    {ps : List String} {g' : List (String × List String)}
    (hlt : lookupTake h g = some (ps, g')) :
    visitSize g = 1 + ps.length + visitSize g' := by
  obtain ⟨pre, post, hg, hg', _⟩ := lookupTake_some_eq g hlt
  rw [hg, hg', visitSize_append, visitSize_append]
  have : visitSize ((h, ps) :: post) = (1 + ps.length) + visitSize post := by
    rw [visitSize, List.map_cons, List.sum_cons]
    rfl
  rw [this]
  omega

lemma lookup_append_middle_ne {β : Type} (pre post : List (String × β))
    (h k : String) (v : β) (hk : k ≠ h) :
    (pre ++ post).lookup k = (pre ++ (h, v) :: post).lookup k := by
  induction pre with
  | nil =>
    rw [List.nil_append, List.nil_append, List.lookup]
    rw [beq_false_of_ne hk]
  | cons e pre ih =>
    obtain ⟨k', w⟩ := e
    rw [List.cons_append, List.cons_append, List.lookup, List.lookup]
    cases hkk : k == k' with
    | true => rfl
    | false => exact ih

lemma lookupTake_lookup_ne {g : List (String × List String)} {h : String}
    {ps : List String} {g' : List (String × List String)}
    (hlt : lookupTake h g = some (ps, g')) {k : String} (hk : k ≠ h) :
    g'.lookup k = g.lookup k := by
  obtain ⟨pre, post, hg, hg', _⟩ := lookupTake_some_eq g hlt
  rw [hg, hg']
  exact lookup_append_middle_ne pre post h k ps hk

lemma keys_of_decomp {pre post : List (String × List String)} {h : String}
    {ps : List String} :
    ((pre ++ (h, ps) :: post).map Prod.fst) =
      pre.map Prod.fst ++ h :: post.map Prod.fst := by
  rw [List.map_append, List.map_cons]

lemma lookupTake_lookup_self {g : List (String × List String)} {h : String}
    {ps : List String} {g' : List (String × List String)}
    (hlt : lookupTake h g = some (ps, g'))
    (hnd : (g.map Prod.fst).Nodup) : g'.lookup h = none := by
  obtain ⟨pre, post, hg, hg', hpre⟩ := lookupTake_some_eq g hlt
  rw [hg, keys_of_decomp] at hnd
  have hpost : h ∉ post.map Prod.fst := by
    have := (List.nodup_append.mp hnd).2.1
    exact (List.nodup_cons.mp this).1
  apply lookup_eq_none_of_not_mem_keys
  rw [hg', List.map_append, List.mem_append]
  rintro (hc | hc)
  · obtain ⟨e, he, hee⟩ := List.mem_map.mp hc
    exact hpre e he hee
  · exact hpost hc

lemma lookupTake_sublist {g : List (String × List String)} {h : String}
    {ps : List String} {g' : List (String × List String)}
    (hlt : lookupTake h g = some (ps, g')) : g'.Sublist g := by
  obtain ⟨pre, post, hg, hg', _⟩ := lookupTake_some_eq g hlt
  rw [hg, hg']
  exact (List.sublist_cons_self _ _).append_left pre

lemma lookupTake_keys_nodup {g : List (String × List String)} {h : String}
    {ps : List String} {g' : List (String × List String)}
    (hlt : lookupTake h g = some (ps, g'))
    (hnd : (g.map Prod.fst).Nodup) : (g'.map Prod.fst).Nodup :=
  ((lookupTake_sublist hlt).map Prod.fst).nodup hnd

lemma lookupTake_keys_subset {g : List (String × List String)} {h : String}
    {ps : List String} {g' : List (String × List String)}
    (hlt : lookupTake h g = some (ps, g')) :
    g'.map Prod.fst ⊆ g.map Prod.fst :=
  ((lookupTake_sublist hlt).map Prod.fst).subset

lemma Reaches_lookup_isSome {g : List (String × List String)} {f x : String}
    (hr : Reaches g f x) : ∃ v, g.lookup f = some v := by
  cases hr with
  | here hq => exact ⟨_, hq⟩
  | via hq _ _ => exact ⟨_, hq⟩

lemma Reaches_mono {g g' : List (String × List String)}
    (hsub : ∀ k v, g'.lookup k = some v → g.lookup k = some v) :
    ∀ {f x : String}, Reaches g' f x → Reaches g f x := by
  intro f x hr
  induction hr with
  | here hq => exact Reaches.here (hsub _ _ hq)
  | via hq hp _ ih => exact Reaches.via (hsub _ _ hq) hp ih

lemma Reaches_surgery {g g' : List (String × List String)} {h : String}
    {ps : List String}
    (hlk : g.lookup h = some ps)
    (hne : ∀ k, k ≠ h → g'.lookup k = g.lookup k) :
    ∀ {f x : String}, Reaches g f x →
      x = h ∨ Reaches g' f x ∨ ∃ p ∈ ps, Reaches g' p x := by
  intro f x hr
  induction hr with
  | @here a qs hq =>
    by_cases hah : a = h
    · exact Or.inl hah
    · exact Or.inr (Or.inl (Reaches.here (by rw [hne a hah]; exact hq)))
  | @via a p x qs hq hp _ ih =>
    rcases ih with rfl | hg' | hex
    · exact Or.inl rfl
    · by_cases hah : a = h
      · subst hah
        rw [hlk] at hq
        have hqs : qs = ps := (Option.some.inj hq).symm
        subst hqs
        exact Or.inr (Or.inr ⟨p, hp, hg'⟩)
      · exact Or.inr (Or.inl (Reaches.via (by rw [hne a hah]; exact hq) hp hg'))
    · exact Or.inr (Or.inr hex)

lemma walkF_succ_cons (n : Nat) (g : List (String × List String))
    (h : String) (rest : List String) :
    walkF (n + 1) g (h :: rest) =
      (match lookupTake h g with
       | none => walkF n g rest
       | some (ps, g') => h :: walkF n g' (ps ++ rest)) := rfl

lemma walkF_mem_iff :
    ∀ (fuel : Nat) (g : List (String × List String)) (fr : List String),
    (g.map Prod.fst).Nodup → visitSize g + fr.length ≤ fuel →
    ∀ x, (x ∈ walkF fuel g fr ↔ ∃ f ∈ fr, Reaches g f x) := by
  intro fuel
  induction fuel with
  | zero =>
    intro g fr hnd hfuel x
    have hfr : fr = [] := List.eq_nil_of_length_eq_zero (by omega)
    subst hfr
    simp [walkF]
  | succ n ih =>
    intro g fr hnd hfuel x
    cases fr with
    | nil => simp [walkF]
    | cons h rest =>
      rw [walkF_succ_cons]
      cases hlt : lookupTake h g with
      | none =>
        have hlk : g.lookup h = none := (lookupTake_none_iff h g).mp hlt
        have hiff := ih g rest hnd
          (by simp only [List.length_cons] at hfuel; omega) x
        constructor
        · intro hx
          obtain ⟨f, hf, hr⟩ := hiff.mp hx
          exact ⟨f, List.mem_cons_of_mem _ hf, hr⟩
        · rintro ⟨f, hf, hr⟩
          rcases List.mem_cons.mp hf with rfl | hf
          · obtain ⟨v, hv⟩ := Reaches_lookup_isSome hr
            rw [hlk] at hv
            cases hv
          · exact hiff.mpr ⟨f, hf, hr⟩
      | some pr =>
        obtain ⟨ps, g'⟩ := pr
        have hlk : g.lookup h = some ps := lookupTake_lookup hlt
        have hvs : visitSize g = 1 + ps.length + visitSize g' :=
          lookupTake_visitSize hlt
        have hnd' : (g'.map Prod.fst).Nodup := lookupTake_keys_nodup hlt hnd
        have hself : g'.lookup h = none := lookupTake_lookup_self hlt hnd
        have hne : ∀ k, k ≠ h → g'.lookup k = g.lookup k :=
          fun k hk => lookupTake_lookup_ne hlt hk
        have hmono : ∀ f y, Reaches g' f y → Reaches g f y := by
          intro f y h'
          refine Reaches_mono ?_ h'
          intro k v hkv
          by_cases hk : k = h
          · subst hk
            rw [hself] at hkv
            cases hkv
          · rw [← hne k hk]
            exact hkv
        have hfuel' : visitSize g' + (ps ++ rest).length ≤ n := by
          simp only [List.length_cons, List.length_append] at hfuel ⊢
          omega
        have hiff := ih g' (ps ++ rest) hnd' hfuel' x
        constructor
        · intro hx
          rcases List.mem_cons.mp hx with rfl | hx'
          · exact ⟨x, List.mem_cons_self _ _, Reaches.here hlk⟩
          · obtain ⟨f, hf, hr⟩ := hiff.mp hx'
            rcases List.mem_append.mp hf with hf | hf
            · exact ⟨h, List.mem_cons_self _ _,
                Reaches.via hlk hf (hmono f x hr)⟩
            · exact ⟨f, List.mem_cons_of_mem _ hf, hmono f x hr⟩
        · rintro ⟨f, hf, hr⟩
          rcases Reaches_surgery hlk hne hr with rfl | hg'r | ⟨p, hp, hpr⟩
          · exact List.mem_cons_self _ _
          · rcases List.mem_cons.mp hf with rfl | hf2
            · obtain ⟨v, hv⟩ := Reaches_lookup_isSome hg'r
              rw [hself] at hv
              cases hv
            · exact List.mem_cons_of_mem _
                (hiff.mpr ⟨f, List.mem_append.mpr (Or.inr hf2), hg'r⟩)
          · exact List.mem_cons_of_mem _
              (hiff.mpr ⟨p, List.mem_append.mpr (Or.inl hp), hpr⟩)

lemma reachList_mem_iff (g : List (String × List String))
    (hnd : (g.map Prod.fst).Nodup) (h x : String) :
    x ∈ reachList g h ↔ Reaches g h x := by
  rw [reachList, walkF_mem_iff (visitSize g + 1) g [h] hnd (by simp)]
  simp

lemma walkF_subset_keys :
    ∀ (fuel : Nat) (g : List (String × List String)) (fr : List String),
    ∀ x ∈ walkF fuel g fr, x ∈ g.map Prod.fst := by
  intro fuel
  induction fuel with
  | zero => intro g fr x hx; simp [walkF] at hx
  | succ n ih =>
    intro g fr x hx
    cases fr with
    | nil => simp [walkF] at hx
    | cons h rest =>
      rw [walkF_succ_cons] at hx
      cases hlt : lookupTake h g with
      | none =>
        rw [hlt] at hx
        exact ih g rest x hx
      | some pr =>
        obtain ⟨ps, g'⟩ := pr
        rw [hlt] at hx
        rcases List.mem_cons.mp hx with rfl | hx'
        · exact lookup_some_mem_keys (lookupTake_lookup hlt)
        · exact lookupTake_keys_subset hlt (ih g' (ps ++ rest) x hx')

lemma walkF_nodup :
    ∀ (fuel : Nat) (g : List (String × List String)) (fr : List String),
    (g.map Prod.fst).Nodup → (walkF fuel g fr).Nodup := by
  intro fuel
  induction fuel with
  | zero => intro g fr _; simp [walkF]
  | succ n ih =>
    intro g fr hnd
    cases fr with
    | nil => simp [walkF]
    | cons h rest =>
      rw [walkF_succ_cons]
      cases hlt : lookupTake h g with
      | none => exact ih g rest hnd
      | some pr =>
        obtain ⟨ps, g'⟩ := pr
        have hnd' : (g'.map Prod.fst).Nodup := lookupTake_keys_nodup hlt hnd
        refine List.nodup_cons.mpr ⟨?_, ih g' (ps ++ rest) hnd'⟩
        intro hmem
        have hk := walkF_subset_keys n g' (ps ++ rest) h hmem
        obtain ⟨v, hv⟩ := lookup_isSome_of_mem_keys hk
        rw [lookupTake_lookup_self hlt hnd] at hv
        cases hv

lemma countP_diff_eq (g : List (String × List String))
    (hnd : (g.map Prod.fst).Nodup) (s t : String)
    (A : List String) (hA : A.Nodup)
    (hAm : ∀ x, x ∈ A ↔ Reaches g s x ∧ ¬ Reaches g t x) :
    ((reachList g s).countP fun h => !((reachList g t).contains h)) = A.length := by
  rw [List.countP_eq_length_filter]
  have hnodup : ((reachList g s).filter
      fun h => !((reachList g t).contains h)).Nodup :=
    (walkF_nodup _ g [s] hnd).filter _
  apply ((List.perm_ext_iff_of_nodup hnodup hA).mpr ?_).length_eq
  intro x
  rw [List.mem_filter, hAm x, reachList_mem_iff g hnd s x]
  constructor
  · rintro ⟨h1, h2⟩
    refine ⟨h1, fun hc => ?_⟩
    rw [← reachList_mem_iff g hnd t x] at hc
    simp [hc] at h2
  · rintro ⟨h1, h2⟩
    refine ⟨h1, ?_⟩
    cases hcn : (reachList g t).contains x
    · rfl
    · exact absurd ((reachList_mem_iff g hnd t x).mp
        (List.elem_iff.mp hcn)) h2

/-- C5: when the origin tracking reference of the current branch does
not resolve, both counts are zero; otherwise, for commits present in
the graph, ahead is the number of commits reachable from local HEAD but
not from the tracking reference, and behind the number reachable from
the tracking reference but not from local HEAD (stated via any
duplicate-free enumeration of either reachable-set difference). -/
theorem ahead_behind_spec :
    (∀ (env : RemoteEnv) (branch localHash : String),
        env.head = some (branch, localHash) →
        env.refs.lookup (remoteRefName branch) = none →
        calculateAheadBehind env = (0, 0)) ∧
    (∀ (env : RemoteEnv) (branch localHash remoteHash : String)
        (lps rps A B : List String),
        (env.graph.map Prod.fst).Nodup →
        env.head = some (branch, localHash) →
        env.refs.lookup (remoteRefName branch) = some remoteHash →
        env.graph.lookup localHash = some lps →
        env.graph.lookup remoteHash = some rps →
        A.Nodup → B.Nodup →
        (∀ x, x ∈ A ↔
          Reaches env.graph localHash x ∧ ¬ Reaches env.graph remoteHash x) →
        (∀ x, x ∈ B ↔
          Reaches env.graph remoteHash x ∧ ¬ Reaches env.graph localHash x) →
        calculateAheadBehind env = (A.length, B.length)) := by
  constructor
  · intro env branch lh hhead href
    simp [calculateAheadBehind, hhead, href]
  · intro env branch lh rh lps rps A B hnd hhead href hlc hrc hA hB hAm hBm
    have h1 := countP_diff_eq env.graph hnd lh rh A hA hAm
    have h2 := countP_diff_eq env.graph hnd rh lh B hB hBm
    simp only [calculateAheadBehind, hhead, href, hlc, hrc]
    rw [Prod.mk.injEq]
    exact ⟨h1, h2⟩

/-- Witness for C5: one commit ahead and one behind on a small forked
graph, and zero counts with no tracking reference configured. -/
theorem ahead_behind_spec_witness :
    calculateAheadBehind ⟨[("l1", ["c0"]), ("r1", ["c0"]), ("c0", [])],
        some ("main", "l1"), [("refs/remotes/origin/main", "r1")]⟩ = (1, 1) ∧
    calculateAheadBehind ⟨[("l1", [])], some ("main", "l1"), []⟩ = (0, 0) := by
  constructor
  · have hnd : (([("l1", ["c0"]), ("r1", ["c0"]), ("c0", [])] :
        List (String × List String)).map Prod.fst).Nodup := by decide
    have hl : ∀ x, Reaches [("l1", ["c0"]), ("r1", ["c0"]), ("c0", [])] "l1" x ↔
        x ∈ (["l1", "c0"] : List String) := by
      intro x
      have hcomp : reachList [("l1", ["c0"]), ("r1", ["c0"]), ("c0", [])] "l1"
          = ["l1", "c0"] := by decide
      rw [← reachList_mem_iff _ hnd "l1" x, hcomp]
    have hr : ∀ x, Reaches [("l1", ["c0"]), ("r1", ["c0"]), ("c0", [])] "r1" x ↔
        x ∈ (["r1", "c0"] : List String) := by
      intro x
      have hcomp : reachList [("l1", ["c0"]), ("r1", ["c0"]), ("c0", [])] "r1"
          = ["r1", "c0"] := by decide
      rw [← reachList_mem_iff _ hnd "r1" x, hcomp]
    refine ahead_behind_spec.2 _ "main" "l1" "r1" ["c0"] ["c0"] ["l1"] ["r1"]
      hnd rfl rfl rfl rfl (by decide) (by decide) ?_ ?_
    · intro x
      rw [hl x, hr x]
      constructor
      · intro hx
        have hx1 : x = "l1" := by simpa using hx
        subst hx1
        exact ⟨by decide, by decide⟩
      · rintro ⟨h1, h2⟩
        have h1' : x = "l1" ∨ x = "c0" := by simpa using h1
        rcases h1' with rfl | rfl
        · simp
        · exact absurd (by decide : ("c0" : String) ∈ (["r1", "c0"] : List String)) h2
    · intro x
      rw [hr x, hl x]
      constructor
      · intro hx
        have hx1 : x = "r1" := by simpa using hx
        subst hx1
        exact ⟨by decide, by decide⟩
      · rintro ⟨h1, h2⟩
        have h1' : x = "r1" ∨ x = "c0" := by simpa using h1
        rcases h1' with rfl | rfl
        · simp
        · exact absurd (by decide : ("c0" : String) ∈ (["l1", "c0"] : List String)) h2
  · exact ahead_behind_spec.1 _ "main" "l1" rfl rfl
